import Mathlib

/-!
Verification development for the DevDesk repository.

Each section shallowly embeds the part of the source that a claim is about
(worker message handlers, the background-task bridge, the service worker,
the JSON utilities and the virtualized tree renderer) and proves or refutes
the corresponding claim.  Host primitives that are not repository code
(JSON.parse, the vendored diff library) are treated as parameters or as
abstract call descriptions, as noted at each definition.
-/

/-- The JSON value model (src/src/types/json.ts, type JsonValue): a string,
number, boolean, null, ordered list, or ordered mapping from string keys to
values (key order preserved as encountered).  Numbers are modelled as
integers; none of the verified claims depends on numeric representation. -/
inductive JsonValue where
  | str (s : String)
  | num (n : Int)
  | bool (b : Bool)
  | null
  | arr (xs : List JsonValue)
  | obj (entries : List (String × JsonValue))

/-! ## Diff engine mode selection (src/src/workers/diff.worker.ts, COMPUTE_DIFF)

The vendored diff library calls (diffLines / diffWords / diffJson) are
modelled as constructors of `DiffCall`: two equal `DiffCall`s denote the same
library invocation on the same arguments and therefore the same ordered
change-segment list.  The host primitive JSON.parse is abstracted as the
`tryParse` parameter (`none` models a parse that throws). -/
inductive DiffMode where
  | lines
  | words
  | json
deriving DecidableEq

/-- Description of which diff-library function the worker invokes, with which
arguments (diff.worker.ts lines 27-46). -/
inductive DiffCall where
  | diffLines (text1 text2 : String) (ignoreWhitespace : Bool)
  | diffWords (text1 text2 : String)
  | diffJson (obj1 obj2 : JsonValue)

/-- Algorithm selection of the COMPUTE_DIFF handler (diff.worker.ts lines
29-46): inputs with combined length over 2,000,000 fall back to a line diff
unconditionally; `json` mode falls back to a line diff when either input
fails to parse (the try/catch around JSON.parse); `words` uses a word diff;
anything else a line diff. -/
def computeDiff (tryParse : String → Option JsonValue)
    (text1 text2 : String) (mode : DiffMode) (ignoreWhitespace : Bool) : DiffCall :=
  if text1.length + text2.length > 2000000 then
    .diffLines text1 text2 ignoreWhitespace
  else
    match mode with
    | .json =>
      match tryParse text1, tryParse text2 with
      | some obj1, some obj2 => .diffJson obj1 obj2
      | _, _ => .diffLines text1 text2 ignoreWhitespace
    | .words => .diffWords text1 text2
    | .lines => .diffLines text1 text2 ignoreWhitespace

/-- C5: for every pair of input texts whose combined character length exceeds
2,000,000, the diff engine produces a line-level diff result regardless of the
requested mode (json, words, or lines). -/
theorem diff_large_input_line_fallback (tryParse : String → Option JsonValue)
    (text1 text2 : String) (mode : DiffMode) (iw : Bool)
    (h : text1.length + text2.length > 2000000) :
    computeDiff tryParse text1 text2 mode iw = .diffLines text1 text2 iw := by
  unfold computeDiff
  rw [if_pos h]

theorem diff_large_input_line_fallback_witness :
    computeDiff (fun _ => none) (String.mk (List.replicate 2000001 'a')) ("")
        DiffMode.json true =
      DiffCall.diffLines (String.mk (List.replicate 2000001 'a')) ("") true := by
  apply diff_large_input_line_fallback
  have h1 : (String.mk (List.replicate 2000001 'a')).length = 2000001 := by
    show (List.replicate 2000001 'a').length = 2000001
    rw [List.length_replicate]
  have h2 : ("" : String).length = 0 := rfl
  rw [h1]
  omega

/-- C6: below the 2,000,000-character cutoff, requesting `json` mode when at
least one input fails to parse returns the same diff-library call (hence the
same ordered change-segment list) as requesting `lines` mode on the same two
texts with the same ignore-whitespace setting. -/
theorem diff_json_parse_failure_fallback (tryParse : String → Option JsonValue)
    (text1 text2 : String) (iw : Bool)
    (hlen : ¬ text1.length + text2.length > 2000000)
    (hfail : tryParse text1 = none ∨ tryParse text2 = none) :
    computeDiff tryParse text1 text2 .json iw = computeDiff tryParse text1 text2 .lines iw := by
  unfold computeDiff
  rw [if_neg hlen, if_neg hlen]
  rcases hfail with h | h
  · rw [h]
  · rw [h]
    cases tryParse text1 <;> rfl

theorem diff_json_parse_failure_fallback_witness :
    computeDiff (fun _ => none) ("not json") ("also not json") DiffMode.json false =
      computeDiff (fun _ => none) ("not json") ("also not json") DiffMode.lines false :=
  diff_json_parse_failure_fallback _ _ _ _ (by decide) (Or.inl rfl)

/-! ## Background Task Bridge debounce (src/src/utils/WorkerManager.ts, postMessage)

`postMessage` with a positive `debounceMs` keeps one pending timer per
operation name (`debounceTimers`): a new call clears any existing timer for
the same name and installs its own, so a superseded call's resolve/reject
closures are never invoked — its promise never settles.  The model below runs
a chronological schedule of calls: a pending timer fires once its deadline
passes, executing the call it holds; issuing a call first fires any due
timers, then replaces the pending timer of its operation name.  A call's
promise settles exactly when its entry appears in the executed list. -/
structure PendingTimer where
  op : String
  fireAt : Nat
  callId : Nat

/-- State of the debounce machinery of one WorkerManager instance:
pending per-operation timers plus the ids of calls actually executed. -/
structure DebounceState where
  timers : List PendingTimer
  executed : List Nat

/-- Fire every pending timer whose deadline has passed (the host scheduler
running queued setTimeout callbacks before time `now`). -/
def fireDue (now : Nat) (s : DebounceState) : DebounceState :=
  { timers := s.timers.filter (fun tm => decide (now < tm.fireAt)),
    executed := s.executed ++ (s.timers.filter (fun tm => decide (tm.fireAt ≤ now))).map PendingTimer.callId }

/-- Issue one debounced call (WorkerManager.ts lines 161-178): clear the
existing timer for this operation name, install a new one at now + debounce. -/
def issueCall (debounceMs : Nat) (s : DebounceState) (now : Nat) (op : String) (callId : Nat) : DebounceState :=
  let s := fireDue now s
  { timers := s.timers.filter (fun tm => tm.op != op) ++ [⟨op, now + debounceMs, callId⟩],
    executed := s.executed }

/-- Run a chronological schedule of debounced calls (time, operation name,
call id) and report which calls ever execute; at the end of the schedule all
still-pending timers fire. -/
def runSchedule (debounceMs : Nat) (calls : List (Nat × String × Nat)) : List Nat :=
  let finalState := calls.foldl (fun s c => issueCall debounceMs s c.1 c.2.1 c.2.2) ⟨[], []⟩
  finalState.executed ++ finalState.timers.map PendingTimer.callId

/-- C4: three calls to the same operation name issued 50 ms apart under a
300 ms debounce result in exactly one executed call — the third — and the
first two calls never execute, so their promises never resolve or reject
(their timers were cleared and nothing else holds their resolve/reject). -/
theorem debounced_dispatch_coalescing :
    runSchedule 300 [(0, "OP", 1), (50, "OP", 2), (100, "OP", 3)] = [3] ∧
    1 ∉ runSchedule 300 [(0, "OP", 1), (50, "OP", 2), (100, "OP", 3)] ∧
    2 ∉ runSchedule 300 [(0, "OP", 1), (50, "OP", 2), (100, "OP", 3)] := by
  decide

/-! ## Background Task Bridge cancel-all (spec section 4.3)

Modelled from the spec: the `cancelAll` operation and the companion
`isCancelledError` predicate of the Background Task Bridge are absent from
the WorkerManager variant under src/ (src/src/utils/WorkerManager.ts stops at
`terminate`); only call sites exist (ExcelCsvConverter.tsx lines 61-62, 117,
179, 188-189, 202-203).  Per the spec, cancel-all rejects every pending call
on the instance with a distinguishable cancellation marker, and the predicate
returns true exactly for errors carrying that marker. -/
inductive WorkerCallOutcome where
  | cancelled (message : String)
  | failure (message : String)

/-- Modelled from the spec: reject every pending call with the cancellation
marker, leaving no pending call behind.  Returns the new pending list and the
rejection delivered to each formerly pending call. -/
def cancelAll (pending : List String) (message : String) :
    List String × List (String × WorkerCallOutcome) :=
  ([], pending.map (fun callId => (callId, WorkerCallOutcome.cancelled message)))

/-- Modelled from the spec: companion predicate detecting the cancellation
marker specifically. -/
def isCancelledError : WorkerCallOutcome → Bool
  | .cancelled _ => true
  | .failure _ => false

/-- C1: cancel-all rejects every call pending on the instance with the
cancellation marker and leaves nothing pending, and the companion predicate
holds exactly for errors carrying that marker (so cancellation is
distinguishable from a genuine failure). -/
theorem cancelAll_rejects_all_pending (pending : List String) (message : String) :
    (cancelAll pending message).1 = [] ∧
    (cancelAll pending message).2.map Prod.fst = pending ∧
    ((cancelAll pending message).2.map Prod.snd).all isCancelledError = true ∧
    (∀ e : WorkerCallOutcome, isCancelledError e = true ↔ ∃ m, e = WorkerCallOutcome.cancelled m) := by
  refine ⟨rfl, ?_, ?_, ?_⟩
  · show (pending.map fun callId => (callId, WorkerCallOutcome.cancelled message)).map Prod.fst = pending
    induction pending with
    | nil => rfl
    | cons a l ih => simp_all
  · simp [cancelAll, isCancelledError]
  · intro e
    cases e with
    | cancelled m => simp [isCancelledError]
    | failure m => simp [isCancelledError]

/-! ## Offline cache layer (src/public/sw.js)

The service worker registers listeners by event name.  The activate-cleanup
handler body (sw.js lines 39-51) deletes every cache whose name differs from
the current version tag — but the listener is registered under the event name
" activate" (with a leading space, sw.js line 38), which the browser never
fires, so the cleanup never runs. -/
def CACHE_NAME : String := "devdesk-v1"

/-- Names the activate handler body asks the cache store to delete:
every cached name different from the current version tag. -/
def activateDeletions (cacheNames : List String) : List String :=
  cacheNames.filter (fun n => n != CACHE_NAME)

/-- Effect of deleting a set of cache names from the cache store. -/
def applyDeletions (cacheNames deletions : List String) : List String :=
  cacheNames.filter (fun n => !(deletions.contains n))

/-- Listener table of sw.js as registered (event name, effect on the set of
cache names): install pre-caches under CACHE_NAME; the cleanup handler is
registered under " activate" (leading space) exactly as in the source; fetch
never changes cache names (it only adds entries inside CACHE_NAME). -/
def swListeners : List (String × (List String → List String)) :=
  [("install", fun cs => if cs.contains CACHE_NAME then cs else cs ++ [CACHE_NAME]),
   (" activate", fun cs => applyDeletions cs (activateDeletions cs)),
   ("fetch", fun cs => cs)]

/-- Dispatch a browser event to every listener registered under exactly that
event name. -/
def fireEvent (eventName : String) (cacheNames : List String) : List String :=
  (swListeners.filter (fun l => l.1 == eventName)).foldl (fun s l => l.2 s) cacheNames

/-- C3: when the browser fires the activation event, the stale cache
"devdesk-v0" survives, because the cleanup listener is registered under
" activate" (leading space) and never matches; the handler body itself, had
it run, would have deleted exactly the non-current name. -/
theorem sw_activate_cleanup_never_runs :
    fireEvent ("activate") ["devdesk-v0", "devdesk-v1"] = ["devdesk-v0", "devdesk-v1"] ∧
    applyDeletions ["devdesk-v0", "devdesk-v1"]
        (activateDeletions ["devdesk-v0", "devdesk-v1"]) = ["devdesk-v1"] ∧
    (" activate" : String) ≠ ("activate" : String) := by
  refine ⟨rfl, rfl, ?_⟩
  decide

/-! ## Spreadsheet and delimited-text codec normalization
(src/src/workers/excel.worker.ts, src/src/workers/csv.worker.ts)

Both workers duplicate `flattenObject` and `sanitizeForTabular`.  The host
primitive JSON.stringify is modelled by `jsonStringify`; the JSON.parse step
preceding each operation is left outside the model (the operations below take
the already-parsed value). -/

/-- Escaping applied by JSON.stringify to string content (host primitive,
modelled for quotes and backslashes). -/
def escapeString (s : String) : String :=
  String.mk (s.data.foldr (fun c acc =>
    if c = '"' then '\\' :: '"' :: acc
    else if c = '\\' then '\\' :: '\\' :: acc
    else c :: acc) [])

/-- JSON.stringify (host primitive, modelled): compact serialization used by
flatten and sanitize to keep a nested value inside a single cell. -/
def jsonStringify : JsonValue → String
  | .str s => ("\"") ++ escapeString s ++ ("\"")
  | .num n => toString n
  | .bool true => ("true")
  | .bool false => ("false")
  | .null => ("null")
  | .arr xs => ("[") ++ String.intercalate (",") (xs.attach.map fun x => jsonStringify x.1) ++ ("]")
  | .obj es => ("\x7b") ++ String.intercalate (",")
      (es.attach.map fun e => ("\"") ++ escapeString e.1.1 ++ ("\":") ++ jsonStringify e.1.2) ++ ("\x7d")
decreasing_by
  · have h := List.sizeOf_lt_of_mem x.2
    simp only [JsonValue.arr.sizeOf_spec]
    omega
  · have h := List.sizeOf_lt_of_mem e.2
    obtain ⟨⟨k, v⟩, hm⟩ := e
    simp only [Prod.mk.sizeOf_spec] at h
    simp only [JsonValue.obj.sizeOf_spec]
    omega

/-- Enumerable own properties of a JS value as seen by a for..in loop or
Object.entries: object entries in insertion order; array index/value pairs
(a JS array has typeof 'object'); scalars and null have none. -/
def entriesOf : JsonValue → List (String × JsonValue)
  | .obj es => es
  | .arr xs => xs.enum.map fun p => (toString p.1, p.2)
  | _ => []

/-- JS object property assignment result[key] = v: overwrites in place when
the key already exists, otherwise appends the new property. -/
def jsAssign (res : List (String × JsonValue)) (k : String) (v : JsonValue) :
    List (String × JsonValue) :=
  if res.any (fun e => e.1 == k) then
    res.map (fun e => if e.1 == k then (e.1, v) else e)
  else res ++ [(k, v)]

/-- One iteration of the flattenObject while-loop body (excel.worker.ts lines
34-47 / csv.worker.ts lines 28-41): walk the popped frame's entries in order;
a non-null, non-array object value is pushed for later processing under its
dotted key, an array value is JSON-stringified in place, anything else is
assigned directly.  Returns the updated result object and the frames pushed,
in encounter order. -/
def flattenEntries (pfx : String) (entries : List (String × JsonValue))
    (res : List (String × JsonValue)) :
    List (String × JsonValue) × List (JsonValue × String) :=
  match entries with
  | [] => (res, [])
  | e :: rest =>
    let newKey := if pfx == "" then e.1 else pfx ++ "." ++ e.1
    match e.2 with
    | .obj es2 =>
      let r := flattenEntries pfx rest res
      (r.1, (JsonValue.obj es2, newKey) :: r.2)
    | .arr xs =>
      flattenEntries pfx rest (jsAssign res newKey (.str (jsonStringify (.arr xs))))
    | v => flattenEntries pfx rest (jsAssign res newKey v)

theorem sizeOf_json_pos (v : JsonValue) : 0 < sizeOf v := by
  cases v <;> simp_arith

theorem sum_map_sizeOf_le_list (xs : List JsonValue) :
    (xs.map (fun v => sizeOf v)).sum ≤ sizeOf xs := by
  induction xs with
  | nil => simp
  | cons a l ih =>
    simp only [List.map_cons, List.sum_cons, List.cons.sizeOf_spec]
    omega

theorem sum_map_sizeOf_snd_le (es : List (String × JsonValue)) :
    (es.map (fun e => sizeOf e.2)).sum ≤ sizeOf es := by
  induction es with
  | nil => simp
  | cons a l ih =>
    obtain ⟨k, v⟩ := a
    simp only [List.map_cons, List.sum_cons, List.cons.sizeOf_spec, Prod.mk.sizeOf_spec]
    omega

theorem entriesOf_sum_sizeOf_lt (cur : JsonValue) :
    ((entriesOf cur).map (fun e => sizeOf e.2)).sum < sizeOf cur := by
  cases cur with
  | obj es =>
    have h := sum_map_sizeOf_snd_le es
    simp only [entriesOf, JsonValue.obj.sizeOf_spec]
    omega
  | arr xs =>
    have h1 : ((xs.enum.map fun p => ((toString p.1 : String), p.2)).map
        (fun e => sizeOf e.2)).sum = (xs.map (fun v => sizeOf v)).sum := by
      rw [List.map_map]
      have h2 : ((fun e : String × JsonValue => sizeOf e.2) ∘
          (fun p : Nat × JsonValue => ((toString p.1 : String), p.2))) =
          ((fun v : JsonValue => sizeOf v) ∘ Prod.snd) := rfl
      rw [h2, ← List.map_map, List.enum_map_snd]
    have h := sum_map_sizeOf_le_list xs
    simp only [entriesOf, JsonValue.arr.sizeOf_spec]
    rw [h1]
    omega
  | str s => simp [entriesOf]
  | num n => simp [entriesOf]
  | bool b => simp [entriesOf]
  | null => simp [entriesOf]

theorem flattenEntries_pushed_le (pfx : String) (entries : List (String × JsonValue)) :
    ∀ res, ((flattenEntries pfx entries res).2.map (fun f => sizeOf f.1)).sum ≤
      (entries.map (fun e => sizeOf e.2)).sum := by
  induction entries with
  | nil => intro res; simp [flattenEntries]
  | cons e rest ih =>
    intro res
    obtain ⟨k, v⟩ := e
    cases v with
    | obj es2 =>
      simp only [flattenEntries, List.map_cons, List.sum_cons]
      have := ih res
      omega
    | arr xs =>
      simp only [flattenEntries, List.map_cons, List.sum_cons]
      have := ih (jsAssign res (if pfx == "" then k else pfx ++ "." ++ k)
        (.str (jsonStringify (.arr xs))))
      omega
    | str s =>
      simp only [flattenEntries, List.map_cons, List.sum_cons]
      have := ih (jsAssign res (if pfx == "" then k else pfx ++ "." ++ k) (.str s))
      omega
    | num n =>
      simp only [flattenEntries, List.map_cons, List.sum_cons]
      have := ih (jsAssign res (if pfx == "" then k else pfx ++ "." ++ k) (.num n))
      omega
    | bool b =>
      simp only [flattenEntries, List.map_cons, List.sum_cons]
      have := ih (jsAssign res (if pfx == "" then k else pfx ++ "." ++ k) (.bool b))
      omega
    | null =>
      simp only [flattenEntries, List.map_cons, List.sum_cons]
      have := ih (jsAssign res (if pfx == "" then k else pfx ++ "." ++ k) .null)
      omega

/-- The flattenObject while-loop (excel.worker.ts lines 31-48): pop the top
frame, process its entries, push nested-object frames (last pushed is popped
first, as with a JS array used as a stack). -/
def flattenLoop (stack : List (JsonValue × String)) (res : List (String × JsonValue)) :
    List (String × JsonValue) :=
  match stack with
  | [] => res
  | (cur, pfx) :: rest =>
    flattenLoop ((flattenEntries pfx (entriesOf cur) res).2.reverse ++ rest)
      (flattenEntries pfx (entriesOf cur) res).1
termination_by (stack.map fun f => sizeOf f.1).sum
decreasing_by
  simp only [List.map_append, List.sum_append, List.map_cons, List.sum_cons,
    List.map_reverse, List.sum_reverse]
  have h1 := flattenEntries_pushed_le pfx (entriesOf cur) res
  have h2 := entriesOf_sum_sizeOf_lt cur
  omega

/-- flattenObject (excel.worker.ts lines 25-51, duplicated at csv.worker.ts
lines 19-45): scalars and null are returned unchanged; objects (and arrays,
which are typeof 'object' in JS) are walked iteratively, joining keys with
"." and JSON-stringifying array-valued properties in place. -/
def flattenObject (v : JsonValue) : JsonValue :=
  match v with
  | .obj es => .obj (flattenLoop [(JsonValue.obj es, "")] [])
  | .arr xs => .obj (flattenLoop [(JsonValue.arr xs, "")] [])
  | x => x

/-- Stringification applied by sanitizeForTabular to a property value:
non-null objects and arrays are JSON-stringified in place, everything else
passes through. -/
def sanitizeValue : JsonValue → JsonValue
  | .obj es => .str (jsonStringify (.obj es))
  | .arr xs => .str (jsonStringify (.arr xs))
  | v => v

/-- sanitizeForTabular (excel.worker.ts lines 56-70 / csv.worker.ts lines
50-64): a non-object row (scalars and null) becomes a single "value" cell;
an object or array row keeps its entries with nested values stringified. -/
def sanitizeForTabular (data : List JsonValue) : List JsonValue :=
  data.map fun item =>
    match item with
    | .obj es => .obj (es.map fun e => (e.1, sanitizeValue e.2))
    | .arr xs => .obj ((entriesOf (.arr xs)).map fun e => (e.1, sanitizeValue e.2))
    | x => .obj [(("value"), x)]

/-- json-to-excel normalization (excel.worker.ts lines 79-99): the parsed
input is coerced to a single-element list when it is not an array, then
flattened or sanitized according to the flatten option.  Returns the tabular
rows handed to the spreadsheet library. -/
def excelJsonToExcelRows (parsed : JsonValue) (flatten : Bool) : List JsonValue :=
  let processedData := match parsed with
    | .arr xs => xs
    | v => [v]
  if flatten then processedData.map flattenObject else sanitizeForTabular processedData

/-- json-to-csv normalization (csv.worker.ts lines 81-93): the parsed input is
passed straight to `jsonData.map` / `sanitizeForTabular` with no array
coercion, so a non-array input raises a TypeError (".map is not a function"),
which the catch-all wraps into an error response. -/
def csvJsonToCsvRows (parsed : JsonValue) (flatten : Bool) : Except String (List JsonValue) :=
  match parsed with
  | .arr xs => .ok (if flatten then xs.map flattenObject else sanitizeForTabular xs)
  | _ => .error ("map is not a function")

/-- PARSE_FOR_PREVIEW in the spreadsheet worker (excel.worker.ts lines
129-160): coerce to a single-element list when not an array, flatten when
requested (this path never sanitizes), return the first 1000 rows plus the
true total row count. -/
def excelParseForPreview (parsed : JsonValue) (flatten : Bool) : List JsonValue × Nat :=
  let processedData := match parsed with
    | .arr xs => xs
    | v => [v]
  let processedData := if flatten then processedData.map flattenObject else processedData
  (processedData.take 1000, processedData.length)

/-- PARSE_FOR_PREVIEW in the delimited-text worker (csv.worker.ts lines
116-146): identical coercion, flatten option, preview cap and total count. -/
def csvParseForPreview (parsed : JsonValue) (flatten : Bool) : List JsonValue × Nat :=
  let processedData := match parsed with
    | .arr xs => xs
    | v => [v]
  let processedData := if flatten then processedData.map flattenObject else processedData
  (processedData.take 1000, processedData.length)

/-- C2 counterexample: a bare-object input to json-to-csv produces an error
response, not a single output row — the delimited-text worker's json-to-csv
branch performs no coercion of a non-array input to a single-element list,
so `jsonData.map` / `data.map` throws before any normalization runs. -/
theorem csv_json_to_csv_no_coercion_counterexample :
    csvJsonToCsvRows (JsonValue.obj [(("a"), JsonValue.num 1)]) false =
      Except.error ("map is not a function") := rfl

/-- C2 (amended): in json-to-excel and in both PARSE_FOR_PREVIEW operations a
parsed non-array top-level input is coerced to a single-element list before
flatten or sanitize normalization runs, producing exactly one output row (and
a total row count of one) rather than an error; the json-to-csv operation
performs no such coercion and errors on non-array input (see the
counterexample). -/
theorem non_array_input_single_row (parsed : JsonValue) (flatten : Bool)
    (h : ∀ xs, parsed ≠ JsonValue.arr xs) :
    (excelJsonToExcelRows parsed flatten).length = 1 ∧
    (excelParseForPreview parsed flatten).1.length = 1 ∧
    (excelParseForPreview parsed flatten).2 = 1 ∧
    (csvParseForPreview parsed flatten).1.length = 1 ∧
    (csvParseForPreview parsed flatten).2 = 1 := by
  cases parsed with
  | arr xs => exact absurd rfl (h xs)
  | str s =>
    cases flatten <;>
      simp [excelJsonToExcelRows, excelParseForPreview, csvParseForPreview, sanitizeForTabular]
  | num n =>
    cases flatten <;>
      simp [excelJsonToExcelRows, excelParseForPreview, csvParseForPreview, sanitizeForTabular]
  | bool b =>
    cases flatten <;>
      simp [excelJsonToExcelRows, excelParseForPreview, csvParseForPreview, sanitizeForTabular]
  | null =>
    cases flatten <;>
      simp [excelJsonToExcelRows, excelParseForPreview, csvParseForPreview, sanitizeForTabular]
  | obj es =>
    cases flatten <;>
      simp [excelJsonToExcelRows, excelParseForPreview, csvParseForPreview, sanitizeForTabular]

theorem non_array_input_single_row_witness :
    (excelJsonToExcelRows (JsonValue.obj [(("a"), JsonValue.num 1)]) true).length = 1 ∧
    (excelParseForPreview (JsonValue.obj [(("a"), JsonValue.num 1)]) true).1.length = 1 ∧
    (excelParseForPreview (JsonValue.obj [(("a"), JsonValue.num 1)]) true).2 = 1 ∧
    (csvParseForPreview (JsonValue.obj [(("a"), JsonValue.num 1)]) true).1.length = 1 ∧
    (csvParseForPreview (JsonValue.obj [(("a"), JsonValue.num 1)]) true).2 = 1 :=
  non_array_input_single_row (JsonValue.obj [(("a"), JsonValue.num 1)]) true
    (fun _ hx => JsonValue.noConfusion hx)

/-! ## Comment stripping (src/src/workers/jsonParser.worker.ts, stripComments)

Text is modelled as its character list (String.data).  The parser applied
after stripping is irrelevant to the claim once the stripped text equals the
corresponding comment-free text, so no JSON parser is involved: equality of
texts gives equality of parses for every parser. -/

theorem dropWhile_length_le {α : Type} (p : α → Bool) (l : List α) :
    (l.dropWhile p).length ≤ l.length := by
  induction l with
  | nil => simp
  | cons a t ih =>
    by_cases h : p a = true
    · simp only [List.dropWhile_cons, h, if_true, List.length_cons]
      omega
    · simp [List.dropWhile_cons, h]

/-- stripComments scanner (jsonParser.worker.ts lines 123-165), one character
at a time with the inString / escapeNext state: an escaped character is
copied verbatim; a backslash inside a string starts an escape; an unescaped
double quote toggles string tracking; a // outside a string skips through the
end of the line (the inner while stops at the newline and the for-loop
increment steps past it); anything else is copied. -/
def stripCommentsAux : List Char → Bool → Bool → List Char
  | [], _, _ => []
  | c :: rest, inString, escapeNext =>
    if escapeNext then c :: stripCommentsAux rest inString false
    else if c == '\\' && inString then c :: stripCommentsAux rest inString true
    else if c == '"' then c :: stripCommentsAux rest (!inString) false
    else if !inString && c == '/' && rest.head? == some '/' then
      stripCommentsAux ((rest.dropWhile (fun x => x != '\n')).drop 1) inString false
    else c :: stripCommentsAux rest inString false
termination_by l _ _ => l.length
decreasing_by
  · simp
  · simp
  · simp
  · have h1 := dropWhile_length_le (fun x => x != '\n') rest
    have h2 := List.length_drop 1 (rest.dropWhile (fun x => x != '\n'))
    simp only [List.length_cons]
    omega
  · simp

/-- stripComments (jsonParser.worker.ts line 123): scan from the initial
state — outside any string, no pending escape. -/
def stripComments (jsonString : List Char) : List Char :=
  stripCommentsAux jsonString false false

/-- Comment removal as the spec words it (spec sections 4.5, 6 and 8 item 1):
inside a double-quoted string value every character is kept — a backslash
escapes the character after it and an unescaped quote closes the string — so
a // inside string content is preserved verbatim; outside a string a //
starts a line comment and the text through the end of that line is removed. -/
def specRemoveComments : List Char → Bool → Bool → List Char
  | [], _, _ => []
  | c :: rest, inString, escaped =>
    if inString then
      if escaped then c :: specRemoveComments rest true false
      else if c == '\\' then c :: specRemoveComments rest true true
      else if c == '"' then c :: specRemoveComments rest false false
      else c :: specRemoveComments rest true false
    else
      if c == '"' then c :: specRemoveComments rest true false
      else if c == '/' && rest.head? == some '/' then
        specRemoveComments ((rest.dropWhile (fun x => x != '\n')).drop 1) false false
      else c :: specRemoveComments rest false false
termination_by l _ _ => l.length
decreasing_by
  · simp
  · simp
  · simp
  · simp
  · simp
  · have h1 := dropWhile_length_le (fun x => x != '\n') rest
    have h2 := List.length_drop 1 (rest.dropWhile (fun x => x != '\n'))
    simp only [List.length_cons]
    omega
  · simp

/-- Predicate: scanning with the string/escape state machine never meets a //
outside a string — every // of the text is protected by correctly tracked
double quotes and backslash escapes. -/
def noUnquotedSlashes : List Char → Bool → Bool → Bool
  | [], _, _ => true
  | c :: rest, inString, escaped =>
    if escaped then noUnquotedSlashes rest inString false
    else if c == '\\' && inString then noUnquotedSlashes rest inString true
    else if c == '"' then noUnquotedSlashes rest (!inString) false
    else if !inString && c == '/' && rest.head? == some '/' then false
    else noUnquotedSlashes rest inString false

theorem stripCommentsAux_eq_spec (l : List Char) (s e : Bool) :
    (e = true → s = true) → stripCommentsAux l s e = specRemoveComments l s e := by
  induction l, s, e using stripCommentsAux.induct with
  | case1 s e =>
    intro h
    simp [stripCommentsAux, specRemoveComments]
  | case2 c rest inString ih =>
    intro h
    have hs : inString = true := h rfl
    subst hs
    simp only [stripCommentsAux, specRemoveComments, reduceIte]
    exact congrArg (List.cons c) (ih (fun _ => rfl))
  | case3 c rest inString escapeNext hne hbs ih =>
    intro h
    have he : escapeNext = false := by
      cases escapeNext
      · rfl
      · exact absurd rfl hne
    subst he
    have hs : inString = true := by
      cases inString
      · simp at hbs
      · rfl
    subst hs
    have hc : (c == '\\') = true := by simpa using hbs
    simp only [stripCommentsAux, specRemoveComments, hc, Bool.and_true, reduceIte]
    exact congrArg (List.cons c) (ih (fun _ => rfl))
  | case4 c rest inString escapeNext hne hbs hq ih =>
    intro h
    have he : escapeNext = false := by
      cases escapeNext
      · rfl
      · exact absurd rfl hne
    subst he
    cases inString with
    | true =>
      have hcb : (c == '\\') = false := by
        cases hx : c == '\\'
        · rfl
        · exact absurd (by simp [hx]) hbs
      simp only [stripCommentsAux, specRemoveComments, hq, hcb, Bool.and_true,
        Bool.not_true, reduceIte]
      exact congrArg (List.cons c) (ih (fun hx => absurd hx Bool.false_ne_true))
    | false =>
      simp only [stripCommentsAux, specRemoveComments, hq, Bool.and_false,
        Bool.not_false, reduceIte]
      exact congrArg (List.cons c) (ih (fun hx => absurd hx Bool.false_ne_true))
  | case5 c rest inString escapeNext hne hbs hq hcm ih =>
    intro h
    have he : escapeNext = false := by
      cases escapeNext
      · rfl
      · exact absurd rfl hne
    subst he
    have hs : inString = false := by
      cases inString
      · rfl
      · simp at hcm
    subst hs
    simp only [Bool.not_false, Bool.true_and] at hcm
    have hslash : (c == '/') = true := (Bool.and_eq_true_iff.mp hcm).1
    have hnq : (c == '"') = false := by
      cases hx : c == '"'
      · rfl
      · have h1 : c = '"' := by simpa using hx
        have h2 : c = '/' := by simpa using hslash
        rw [h1] at h2
        simp at h2
    have hhd : (rest.head? == some '/') = true := (Bool.and_eq_true_iff.mp hcm).2
    simp only [stripCommentsAux, specRemoveComments, hcm, hnq, hslash, hhd, Bool.and_false,
      Bool.not_false, Bool.true_and, reduceIte]
    exact ih (fun hx => absurd hx Bool.false_ne_true)
  | case6 c rest inString escapeNext hne hbs hq hcm ih =>
    intro h
    have he : escapeNext = false := by
      cases escapeNext
      · rfl
      · exact absurd rfl hne
    subst he
    have hnq : (c == '"') = false := by
      cases hx : c == '"'
      · rfl
      · exact absurd (by simp [hx]) hq
    cases inString with
    | true =>
      have hcb : (c == '\\') = false := by
        cases hx : c == '\\'
        · rfl
        · exact absurd (by simp [hx]) hbs
      simp only [stripCommentsAux, specRemoveComments, hnq, hcb, Bool.and_true,
        Bool.not_true, Bool.false_and, reduceIte]
      exact congrArg (List.cons c) (ih (fun hx => absurd hx Bool.false_ne_true))
    | false =>
      have hncm : (c == '/' && rest.head? == some '/') = false := by
        cases hx : c == '/' && rest.head? == some '/'
        · rfl
        · exact absurd (by simp [hx]) hcm
      simp only [stripCommentsAux, specRemoveComments, hnq, hncm, Bool.and_false,
        Bool.not_false, Bool.true_and, reduceIte]
      exact congrArg (List.cons c) (ih (fun hx => absurd hx Bool.false_ne_true))

theorem stripCommentsAux_protected_id (l : List Char) (s e : Bool) :
    noUnquotedSlashes l s e = true → stripCommentsAux l s e = l := by
  induction l, s, e using stripCommentsAux.induct with
  | case1 s e =>
    intro h
    simp [stripCommentsAux]
  | case2 c rest inString ih =>
    intro h
    simp only [noUnquotedSlashes, reduceIte] at h
    simp only [stripCommentsAux, reduceIte]
    exact congrArg (List.cons c) (ih h)
  | case3 c rest inString escapeNext hne hbs ih =>
    intro h
    have he : escapeNext = false := by
      cases escapeNext
      · rfl
      · exact absurd rfl hne
    subst he
    simp only [noUnquotedSlashes, hbs, reduceIte] at h
    simp only [stripCommentsAux, hbs, reduceIte]
    exact congrArg (List.cons c) (ih h)
  | case4 c rest inString escapeNext hne hbs hq ih =>
    intro h
    have he : escapeNext = false := by
      cases escapeNext
      · rfl
      · exact absurd rfl hne
    subst he
    have hbs' : (c == '\\' && inString) = false := by
      cases hx : c == '\\' && inString
      · rfl
      · exact absurd hx hbs
    simp only [noUnquotedSlashes, hbs', hq, reduceIte] at h
    simp only [stripCommentsAux, hbs', hq, reduceIte]
    exact congrArg (List.cons c) (ih h)
  | case5 c rest inString escapeNext hne hbs hq hcm ih =>
    intro h
    have he : escapeNext = false := by
      cases escapeNext
      · rfl
      · exact absurd rfl hne
    subst he
    have hbs' : (c == '\\' && inString) = false := by
      cases hx : c == '\\' && inString
      · rfl
      · exact absurd hx hbs
    have hq' : (c == '"') = false := by
      cases hx : c == '"'
      · rfl
      · exact absurd hx hq
    simp only [noUnquotedSlashes, hbs', hq', hcm, reduceIte] at h
    exact absurd h Bool.false_ne_true
  | case6 c rest inString escapeNext hne hbs hq hcm ih =>
    intro h
    have he : escapeNext = false := by
      cases escapeNext
      · rfl
      · exact absurd rfl hne
    subst he
    have hbs' : (c == '\\' && inString) = false := by
      cases hx : c == '\\' && inString
      · rfl
      · exact absurd hx hbs
    have hq' : (c == '"') = false := by
      cases hx : c == '"'
      · rfl
      · exact absurd hx hq
    have hcm' : (!inString && c == '/' && rest.head? == some '/') = false := by
      cases hx : !inString && c == '/' && rest.head? == some '/'
      · rfl
      · exact absurd hx hcm
    simp only [noUnquotedSlashes, hbs', hq', hcm', reduceIte] at h
    simp only [stripCommentsAux, hbs', hq', hcm', reduceIte]
    exact congrArg (List.cons c) (ih h)

/-- C7: the comment stripper is string-literal-safe: on every text it computes
exactly the spec-level comment removal (so stripping and then parsing yields
the same value as parsing the corresponding comment-free text, for any
parser), and on a text whose every // is protected by correctly tracked
double quotes and backslash escapes it is the identity — a // occurring
inside a quoted string value is preserved verbatim. -/
theorem stripComments_string_literal_safe (text : List Char) :
    stripComments text = specRemoveComments text false false ∧
    (noUnquotedSlashes text false false = true → stripComments text = text) :=
  ⟨stripCommentsAux_eq_spec text false false (fun hx => absurd hx Bool.false_ne_true),
   fun h => stripCommentsAux_protected_id text false false h⟩

theorem stripComments_string_literal_safe_witness :
    noUnquotedSlashes (String.data ("\x7b\"url\": \"http://example.com\", \"n\": 1\x7d")) false false = true ∧
    stripComments (String.data ("\x7b\"url\": \"http://example.com\", \"n\": 1\x7d")) =
      String.data ("\x7b\"url\": \"http://example.com\", \"n\": 1\x7d") :=
  ⟨by decide, (stripComments_string_literal_safe _).2 (by decide)⟩

/-! ## Virtualized tree renderer flattening
(src/unnamed/part_002, VirtualizedJsonTree, visibleNodes)

The tree node shape follows src/src/types/json.ts JsonNode; an absent
children field and an empty children list are indistinguishable to the walk
(`hasChildren` requires a non-empty list), so children is modelled as a
plain list. -/
inductive NodeType where
  | string
  | number
  | boolean
  | null
  | array
  | object
deriving DecidableEq

inductive JsonNode where
  | mk (key : String) (value : JsonValue) (type : NodeType) (path : String)
      (children : List JsonNode)

def JsonNode.key : JsonNode → String
  | .mk k _ _ _ _ => k

def JsonNode.value : JsonNode → JsonValue
  | .mk _ v _ _ _ => v

def JsonNode.type : JsonNode → NodeType
  | .mk _ _ t _ _ => t

def JsonNode.path : JsonNode → String
  | .mk _ _ _ p _ => p

def JsonNode.children : JsonNode → List JsonNode
  | .mk _ _ _ _ cs => cs

/-- Number of nodes of a tree (the walk's cost measure). -/
def nodeCount : JsonNode → Nat
  | .mk _ _ _ _ children => 1 + (children.attach.map fun c => nodeCount c.1).sum
decreasing_by
  have h := List.sizeOf_lt_of_mem c.2
  simp only [JsonNode.mk.sizeOf_spec]
  omega

theorem nodeCount_eq (k : String) (v : JsonValue) (t : NodeType) (p : String)
    (cs : List JsonNode) :
    nodeCount (JsonNode.mk k v t p cs) = 1 + (cs.map nodeCount).sum := by
  rw [nodeCount, List.attach_map_coe]

theorem nodeCount_pos (n : JsonNode) : 0 < nodeCount n := by
  cases n with
  | mk k v t p cs =>
    rw [nodeCount_eq]
    omega

theorem length_le_sum_nodeCount (cs : List JsonNode) :
    cs.length ≤ (cs.map nodeCount).sum := by
  induction cs with
  | nil => simp
  | cons a l ih =>
    simp only [List.map_cons, List.sum_cons, List.length_cons]
    have := nodeCount_pos a
    omega

theorem sum_take_add_sum_drop (cs : List JsonNode) (k : Nat) :
    ((cs.take k).map nodeCount).sum + ((cs.drop k).map nodeCount).sum =
      (cs.map nodeCount).sum := by
  conv_rhs => rw [← List.take_append_drop k cs]
  rw [List.map_append, List.sum_append]

/-- A flattened render row (part_002 interface FlatNode). -/
structure FlatNode where
  node : JsonNode
  depth : Nat
  hasChildren : Bool
  path : String

def CHILD_LIMIT : Nat := 200

def GLOBAL_RENDER_LIMIT : Nat := 15000

/-- The synthetic truncation row the circuit breaker appends
(part_002 lines 91-101). -/
def truncationRow : FlatNode :=
  { node := JsonNode.mk ("⚠️ VIEW TRUNCATED")
      (JsonValue.str ("Stopped rendering after 15,000 nodes to preserve browser performance. Collapse some nodes to see more."))
      NodeType.null ("truncated-global") [],
    depth := 1,
    hasChildren := false,
    path := ("truncated-global") }

/-- Frames pushed for an expanded node, in pop order (part_002 lines
115-143): a node with more than 200 children contributes its first 200
children and then one "...and N more items" placeholder; otherwise all its
children in order. -/
def childFrames (node : JsonNode) (depth : Nat) : List (JsonNode × Nat) :=
  let count := node.children.length
  if count > CHILD_LIMIT then
    let remaining := count - CHILD_LIMIT
    let placeholder : JsonNode := JsonNode.mk
      (("...and ") ++ toString remaining ++ (" more items"))
      (JsonValue.str ("Use search to find specific items")) NodeType.null
      (node.path ++ (".truncated")) []
    (node.children.take CHILD_LIMIT).map (fun c => (c, depth + 1)) ++ [(placeholder, depth + 1)]
  else
    node.children.map (fun c => (c, depth + 1))

theorem childFrames_count_lt (node : JsonNode) (depth : Nat) :
    ((childFrames node depth).map fun f => nodeCount f.1).sum < nodeCount node := by
  cases node with
  | mk k v t p cs =>
    rw [nodeCount_eq]
    unfold childFrames
    simp only [JsonNode.children, JsonNode.path]
    by_cases hc : cs.length > CHILD_LIMIT
    · rw [if_pos hc]
      simp only [List.map_append, List.sum_append, List.map_map, List.map_cons,
        List.map_nil, List.sum_cons, List.sum_nil]
      have hph : nodeCount (JsonNode.mk (("...and ") ++ toString (cs.length - CHILD_LIMIT) ++ (" more items"))
          (JsonValue.str ("Use search to find specific items")) NodeType.null
          (p ++ (".truncated")) []) = 1 := by
        rw [nodeCount_eq]
        simp
      have h1 : ((cs.take CHILD_LIMIT).map (fun c => nodeCount c)).sum +
          ((cs.drop CHILD_LIMIT).map nodeCount).sum = (cs.map nodeCount).sum :=
        sum_take_add_sum_drop cs CHILD_LIMIT
      have h2 : (cs.drop CHILD_LIMIT).length ≤ ((cs.drop CHILD_LIMIT).map nodeCount).sum :=
        length_le_sum_nodeCount _
      have h3 : (cs.drop CHILD_LIMIT).length = cs.length - CHILD_LIMIT := List.length_drop _ _
      have h4 : ((cs.take CHILD_LIMIT).map ((fun f : JsonNode × Nat => nodeCount f.1) ∘
          (fun c => (c, depth + 1)))).sum = ((cs.take CHILD_LIMIT).map (fun c => nodeCount c)).sum := rfl
      rw [hph, h4]
      omega
    · rw [if_neg hc]
      simp only [List.map_map]
      have h4 : (cs.map ((fun f : JsonNode × Nat => nodeCount f.1) ∘
          (fun c => (c, depth + 1)))).sum = (cs.map nodeCount).sum := rfl
      rw [h4]
      omega

/-- The visibleNodes walk without the global circuit breaker: what "fully
expanded visible node count" means for a given expansion state. -/
def visLoopU (expandedPaths : List String) (defaultExpanded : Bool) :
    List (JsonNode × Nat) → List FlatNode
  | [] => []
  | (node, depth) :: rest =>
    let hasChildren := !node.children.isEmpty
    let row : FlatNode := ⟨node, depth, hasChildren, node.path⟩
    if hasChildren && (defaultExpanded || expandedPaths.contains node.path) then
      row :: visLoopU expandedPaths defaultExpanded (childFrames node depth ++ rest)
    else
      row :: visLoopU expandedPaths defaultExpanded rest
termination_by stack => (stack.map fun f => nodeCount f.1).sum
decreasing_by
  · simp only [List.map_append, List.sum_append, List.map_cons, List.sum_cons]
    have h1 := childFrames_count_lt node depth
    omega
  · simp only [List.map_cons, List.sum_cons]
    have h1 := nodeCount_pos node
    omega

/-- The visibleNodes while-loop as implemented (part_002 lines 88-144):
`count` is the number of rows already emitted (result.length); once it
reaches the render limit while frames remain, the synthetic truncation row is
appended and traversal stops. -/
def visLoopL (expandedPaths : List String) (defaultExpanded : Bool) :
    List (JsonNode × Nat) → Nat → List FlatNode
  | [], _ => []
  | (node, depth) :: rest, count =>
    if count ≥ GLOBAL_RENDER_LIMIT then [truncationRow]
    else
      let hasChildren := !node.children.isEmpty
      let row : FlatNode := ⟨node, depth, hasChildren, node.path⟩
      if hasChildren && (defaultExpanded || expandedPaths.contains node.path) then
        row :: visLoopL expandedPaths defaultExpanded (childFrames node depth ++ rest) (count + 1)
      else
        row :: visLoopL expandedPaths defaultExpanded rest (count + 1)
termination_by stack _ => (stack.map fun f => nodeCount f.1).sum
decreasing_by
  · simp only [List.map_append, List.sum_append, List.map_cons, List.sum_cons]
    have h1 := childFrames_count_lt node depth
    omega
  · simp only [List.map_cons, List.sum_cons]
    have h1 := nodeCount_pos node
    omega

/-- The flattening computed by the virtualized renderer for a tree and an
expansion state (part_002 visibleNodes). -/
def visibleNodes (data : JsonNode) (expandedPaths : List String) (defaultExpanded : Bool) :
    List FlatNode :=
  visLoopL expandedPaths defaultExpanded [(data, 0)] 0

/-- The same flattening without the global cap: its length is the fully
expanded visible node count of the tree under that expansion state. -/
def visibleNodesUnbounded (data : JsonNode) (expandedPaths : List String) (defaultExpanded : Bool) :
    List FlatNode :=
  visLoopU expandedPaths defaultExpanded [(data, 0)]

theorem visLoopL_eq_visLoopU (ep : List String) (de : Bool) (stack : List (JsonNode × Nat)) :
    ∀ count, count ≤ GLOBAL_RENDER_LIMIT →
      visLoopL ep de stack count =
        if GLOBAL_RENDER_LIMIT < (visLoopU ep de stack).length + count then
          (visLoopU ep de stack).take (GLOBAL_RENDER_LIMIT - count) ++ [truncationRow]
        else visLoopU ep de stack := by
  refine visLoopU.induct ep de
    (fun stack => ∀ count, count ≤ GLOBAL_RENDER_LIMIT →
      visLoopL ep de stack count =
        if GLOBAL_RENDER_LIMIT < (visLoopU ep de stack).length + count then
          (visLoopU ep de stack).take (GLOBAL_RENDER_LIMIT - count) ++ [truncationRow]
        else visLoopU ep de stack) ?_ ?_ ?_ stack
  · intro count hc
    simp only [visLoopL, visLoopU, List.length_nil]
    rw [if_neg (by omega)]
  · intro node depth rest hasChildren hexp ih count hc
    unfold hasChildren at hexp
    by_cases hcnt : GLOBAL_RENDER_LIMIT ≤ count
    · have hce : count = GLOBAL_RENDER_LIMIT := le_antisymm hc hcnt
      subst hce
      simp only [visLoopL, visLoopU, hexp, if_true]
      rw [if_pos (le_refl GLOBAL_RENDER_LIMIT)]
      rw [if_pos (by simp only [List.length_cons]; omega)]
      simp
    · simp only [visLoopL, visLoopU, hexp, if_true]
      rw [if_neg hcnt]
      rw [ih (count + 1) (by omega)]
      by_cases hbig : GLOBAL_RENDER_LIMIT <
          (visLoopU ep de (childFrames node depth ++ rest)).length + (count + 1)
      · rw [if_pos hbig, if_pos (by simp only [List.length_cons]; omega)]
        have htake : GLOBAL_RENDER_LIMIT - count = (GLOBAL_RENDER_LIMIT - (count + 1)) + 1 := by
          omega
        rw [htake, List.take_succ_cons]
        simp
      · rw [if_neg hbig, if_neg (by simp only [List.length_cons]; omega)]
  · intro node depth rest hasChildren hexp ih count hc
    unfold hasChildren at hexp
    have hexp' : (!node.children.isEmpty && (de || ep.contains node.path)) = false := by
      cases hx : !node.children.isEmpty && (de || ep.contains node.path)
      · rfl
      · exact absurd hx hexp
    by_cases hcnt : GLOBAL_RENDER_LIMIT ≤ count
    · have hce : count = GLOBAL_RENDER_LIMIT := le_antisymm hc hcnt
      subst hce
      simp only [visLoopL, visLoopU, hexp', Bool.false_eq_true, reduceIte]
      rw [if_pos (le_refl GLOBAL_RENDER_LIMIT)]
      rw [if_pos (by simp only [List.length_cons]; omega)]
      simp
    · simp only [visLoopL, visLoopU, hexp', Bool.false_eq_true, reduceIte]
      rw [if_neg hcnt]
      rw [ih (count + 1) (by omega)]
      by_cases hbig : GLOBAL_RENDER_LIMIT < (visLoopU ep de rest).length + (count + 1)
      · rw [if_pos hbig, if_pos (by simp only [List.length_cons]; omega)]
        have htake : GLOBAL_RENDER_LIMIT - count = (GLOBAL_RENDER_LIMIT - (count + 1)) + 1 := by
          omega
        rw [htake, List.take_succ_cons]
        simp
      · rw [if_neg hbig, if_neg (by simp only [List.length_cons]; omega)]

/-- C8: for every tree and expansion state whose fully expanded visible node
count exceeds 15,000, the flattening walk emits exactly the first 15,000 rows
followed by exactly one synthetic truncation row and abandons the rest of the
traversal, regardless of actual tree size. -/
theorem visibleNodes_render_cap (data : JsonNode) (ep : List String) (de : Bool)
    (h : GLOBAL_RENDER_LIMIT < (visibleNodesUnbounded data ep de).length) :
    visibleNodes data ep de =
      (visibleNodesUnbounded data ep de).take GLOBAL_RENDER_LIMIT ++ [truncationRow] ∧
    (visibleNodes data ep de).length = GLOBAL_RENDER_LIMIT + 1 := by
  have heq := visLoopL_eq_visLoopU ep de [(data, 0)] 0 (by omega)
  rw [if_pos (by simpa using h)] at heq
  simp only [Nat.sub_zero] at heq
  constructor
  · exact heq
  · rw [show visibleNodes data ep de = visLoopL ep de [(data, 0)] 0 from rfl, heq]
    rw [List.length_append, List.length_take]
    simp only [List.length_singleton]
    have : (visLoopU ep de [(data, 0)]).length = (visibleNodesUnbounded data ep de).length := rfl
    omega

/-- A nested chain of n+1 single-child nodes, used to exercise the render
cap on a tree larger than the limit. -/
def chainNode : Nat → JsonNode
  | 0 => JsonNode.mk ("leaf") JsonValue.null NodeType.null ("p") []
  | n + 1 => JsonNode.mk ("k") JsonValue.null NodeType.object ("p") [chainNode n]

theorem visLoopU_chain_length (n : Nat) : ∀ d : Nat,
    (visLoopU [] true [(chainNode n, d)]).length = n + 1 := by
  induction n with
  | zero =>
    intro d
    simp [visLoopU, chainNode, JsonNode.children]
  | succ m ih =>
    intro d
    rw [show chainNode (m + 1) =
      JsonNode.mk ("k") JsonValue.null NodeType.object ("p") [chainNode m] from rfl]
    simp only [visLoopU, JsonNode.children, JsonNode.path, List.isEmpty_cons, Bool.not_false,
      Bool.true_and, Bool.true_or, if_true, childFrames, CHILD_LIMIT, List.length_singleton,
      List.map_cons, List.map_nil, List.nil_append, List.length_cons, List.length_nil,
      Nat.zero_add, List.append_nil]
    rw [if_neg (by omega)]
    rw [ih (d + 1)]

theorem visibleNodes_render_cap_witness :
    GLOBAL_RENDER_LIMIT < (visibleNodesUnbounded (chainNode 15001) [] true).length ∧
    (visibleNodes (chainNode 15001) [] true).length = GLOBAL_RENDER_LIMIT + 1 := by
  have h : GLOBAL_RENDER_LIMIT < (visibleNodesUnbounded (chainNode 15001) [] true).length := by
    rw [show (visibleNodesUnbounded (chainNode 15001) [] true) =
      visLoopU [] true [(chainNode 15001, 0)] from rfl]
    rw [visLoopU_chain_length 15001 0]
    rw [show GLOBAL_RENDER_LIMIT = 15000 from rfl]
    omega
  exact ⟨h, (visibleNodes_render_cap (chainNode 15001) [] true h).2⟩

/-! ## JSON parsing worker search (src/src/workers/jsonParser.worker.ts, SEARCH_JSON) -/

/-- Lowercased character list of a string (String.prototype.toLowerCase). -/
def lowerChars (s : String) : List Char :=
  s.data.map Char.toLower

/-- JS String.prototype.includes modelled on character lists: some suffix of
the haystack starts with the needle. -/
def containsSub (hay needle : List Char) : Bool :=
  hay.tails.any (fun t => needle.isPrefixOf t)

/-- JS String(value) (host primitive, modelled for the primitive values the
search inspects; findSearchMatches' type guard keeps object/array values away
from stringification, so those cases are irrelevant to the handler). -/
def jsStringOfValue : JsonValue → String
  | .str s => s
  | .num n => toString n
  | .bool true => ("true")
  | .bool false => ("false")
  | .null => ("null")
  | .arr _ => ("")
  | .obj _ => ("")

/-- findSearchMatches (jsonParser.worker.ts lines 95-117): a node matches on
its key or, for primitive node types, on its stringified value,
case-insensitively; a node's path joins the expansion set when it has
children and itself or a descendant matched (children's paths are inserted
before the parent's, matching Set insertion order — paths are unique within a
tree, spec section 3, so the insertion-ordered list models the Set); the
counter gains one per key hit and one per value hit. -/
def findSearchMatches (query : String) (node : JsonNode) : Bool × List String × Nat :=
  let lowerQuery := lowerChars query
  let keyMatch := containsSub (lowerChars node.key) lowerQuery
  let valueMatch := node.type != NodeType.object && node.type != NodeType.array &&
    containsSub (lowerChars (jsStringOfValue node.value)) lowerQuery
  let childResults := node.children.attach.map fun c => findSearchMatches query c.1
  let hasChildMatch := childResults.any (fun r => r.1)
  let count := (if keyMatch then 1 else 0) + (if valueMatch then 1 else 0) +
    (childResults.map (fun r => r.2.2)).sum
  let paths := (childResults.map (fun r => r.2.1)).flatten ++
    (if (hasChildMatch || keyMatch) && !node.children.isEmpty then [node.path] else [])
  (keyMatch || valueMatch || hasChildMatch, paths, count)
termination_by sizeOf node
decreasing_by
  have h := List.sizeOf_lt_of_mem c.2
  cases node with
  | mk k v t p cs =>
    simp only [JsonNode.children] at h
    simp only [JsonNode.mk.sizeOf_spec]
    omega

/-- Response payload of SEARCH_JSON (expansion paths plus match count). -/
structure SearchResponse where
  paths : List String
  count : Nat

/-- SEARCH_JSON request payload: either a bare query string or an object
optionally carrying a query and an explicit tree. -/
inductive SearchPayload where
  | str (s : String)
  | obj (query : Option String) (tree : Option JsonNode)

def payloadQuery : SearchPayload → Option String
  | .str s => some s
  | .obj q _ => q

def payloadTree : SearchPayload → Option JsonNode
  | .str _ => none
  | .obj _ t => t

/-- Search result computed from a given tree and query. -/
def searchResponseFor (tree : JsonNode) (query : String) : SearchResponse :=
  { paths := (findSearchMatches query tree).2.1,
    count := (findSearchMatches query tree).2.2 }

/-- SEARCH_JSON handler (jsonParser.worker.ts lines 203-225): the searched
tree is `lastParsedTree || payload?.tree` — the worker's cached last-parsed
tree wins whenever it exists, and the payload's tree is consulted only when
no cached tree exists; a missing tree or falsy query (absent or empty string)
yields the empty response. -/
def handleSearchJson (lastParsedTree : Option JsonNode) (payload : SearchPayload) :
    SearchResponse :=
  let query := payloadQuery payload
  let tree := match lastParsedTree with
    | some t => some t
    | none => payloadTree payload
  match tree, query with
  | some t, some q =>
    if q = ("") then { paths := [], count := 0 } else searchResponseFor t q
  | _, _ => { paths := [], count := 0 }

/-- C10: whenever a cached last-parsed tree exists, SEARCH_JSON searches the
cache — the response equals the cache's search result and is unchanged by any
tree the payload carries; the payload's tree is consulted only when no cached
tree exists. -/
theorem searchJson_prefers_cached_tree (t pt : JsonNode) (q : Option String) :
    handleSearchJson (some t) (.obj q (some pt)) = handleSearchJson (some t) (.obj q none) ∧
    (∀ s : String, s ≠ ("") →
      handleSearchJson (some t) (.obj (some s) (some pt)) = searchResponseFor t s) ∧
    (∀ s : String, s ≠ ("") →
      handleSearchJson none (.obj (some s) (some pt)) = searchResponseFor pt s) := by
  refine ⟨rfl, ?_, ?_⟩
  · intro s hs
    simp only [handleSearchJson, payloadQuery, payloadTree]
    rw [if_neg hs]
  · intro s hs
    simp only [handleSearchJson, payloadQuery, payloadTree]
    rw [if_neg hs]

theorem searchJson_prefers_cached_tree_witness :
    handleSearchJson (some (JsonNode.mk ("a") (JsonValue.num 1) NodeType.number ("root") []))
        (.obj (some ("a"))
          (some (JsonNode.mk ("b") (JsonValue.num 2) NodeType.number ("root") []))) =
      searchResponseFor (JsonNode.mk ("a") (JsonValue.num 1) NodeType.number ("root") []) ("a") ∧
    handleSearchJson none
        (.obj (some ("a"))
          (some (JsonNode.mk ("b") (JsonValue.num 2) NodeType.number ("root") []))) =
      searchResponseFor (JsonNode.mk ("b") (JsonValue.num 2) NodeType.number ("root") []) ("a") := by
  refine ⟨?_, ?_⟩
  · exact (searchJson_prefers_cached_tree
      (JsonNode.mk ("a") (JsonValue.num 1) NodeType.number ("root") [])
      (JsonNode.mk ("b") (JsonValue.num 2) NodeType.number ("root") [])
      (some ("a"))).2.1 ("a") (by decide)
  · exact (searchJson_prefers_cached_tree
      (JsonNode.mk ("a") (JsonValue.num 1) NodeType.number ("root") [])
      (JsonNode.mk ("b") (JsonValue.num 2) NodeType.number ("root") [])
      (some ("a"))).2.2 ("a") (by decide)

/-! ## deepSortKeys (src/unnamed/part_005, lines 118-133)

The JS `.sort()` on Object.keys uses the default lexicographic string
comparison; JS object keys are unique, so sorting the entries by key is the
same as sorting Object.keys(obj) and indexing back into the object. -/

/-- Ordering on object entries: compare keys lexicographically. -/
def entryLE (a b : String × JsonValue) : Prop := a.1 ≤ b.1

instance : DecidableRel entryLE := fun a b => inferInstanceAs (Decidable (a.1 ≤ b.1))

instance : IsTotal (String × JsonValue) entryLE := ⟨fun a b => le_total a.1 b.1⟩

instance : IsTrans (String × JsonValue) entryLE := ⟨fun _ _ _ hab hbc => le_trans hab hbc⟩

/-- deepSortKeys (part_005 lines 118-133): scalars and null are returned
unchanged, array elements are recursively sorted in place, and an object is
rebuilt with its entries in sorted-key order and recursively sorted values. -/
def deepSortKeys : JsonValue → JsonValue
  | .arr xs => .arr (xs.attach.map fun x => deepSortKeys x.1)
  | .obj es => .obj ((es.insertionSort entryLE).attach.map fun e => (e.1.1, deepSortKeys e.1.2))
  | v => v
decreasing_by
  · have h := List.sizeOf_lt_of_mem x.2
    simp only [JsonValue.arr.sizeOf_spec]
    omega
  · rcases e with ⟨⟨k, v⟩, hmm⟩
    have hm : (k, v) ∈ es := (List.perm_insertionSort entryLE es).mem_iff.mp hmm
    have h := List.sizeOf_lt_of_mem hm
    simp only [Prod.mk.sizeOf_spec] at h
    simp only [JsonValue.obj.sizeOf_spec]
    omega

theorem deepSortKeys_arr (xs : List JsonValue) :
    deepSortKeys (.arr xs) = .arr (xs.map deepSortKeys) := by
  rw [deepSortKeys, List.attach_map_coe]

theorem deepSortKeys_obj (es : List (String × JsonValue)) :
    deepSortKeys (.obj es) =
      .obj ((es.insertionSort entryLE).map fun e => (e.1, deepSortKeys e.2)) := by
  rw [deepSortKeys,
    List.attach_map_coe (List.insertionSort entryLE es) (fun e => (e.1, deepSortKeys e.2))]

/-- Structural induction principle for the nested JsonValue type. -/
theorem JsonValue.recDeep {P : JsonValue → Prop}
    (hstr : ∀ s, P (.str s)) (hnum : ∀ n, P (.num n)) (hbool : ∀ b, P (.bool b))
    (hnull : P .null)
    (harr : ∀ xs, (∀ x ∈ xs, P x) → P (.arr xs))
    (hobj : ∀ es, (∀ e ∈ es, P e.2) → P (.obj es)) :
    ∀ v, P v
  | .str s => hstr s
  | .num n => hnum n
  | .bool b => hbool b
  | .null => hnull
  | .arr xs => harr xs (fun x _hx =>
      JsonValue.recDeep hstr hnum hbool hnull harr hobj x)
  | .obj es => hobj es (fun e _he =>
      JsonValue.recDeep hstr hnum hbool hnull harr hobj e.2)
termination_by v => sizeOf v
decreasing_by
  · have h := List.sizeOf_lt_of_mem _hx
    simp only [JsonValue.arr.sizeOf_spec]
    omega
  · have h := List.sizeOf_lt_of_mem _he
    obtain ⟨k, v⟩ := e
    simp only [Prod.mk.sizeOf_spec] at h
    simp only [JsonValue.obj.sizeOf_spec]
    omega

theorem sorted_map_sortEntry {l : List (String × JsonValue)} (h : List.Sorted entryLE l) :
    List.Sorted entryLE (l.map fun e => (e.1, deepSortKeys e.2)) :=
  List.Pairwise.map _ (fun _ _ hab => hab) h

/-- deepSortKeys is idempotent. -/
theorem deepSortKeys_idem : ∀ v, deepSortKeys (deepSortKeys v) = deepSortKeys v := by
  intro v
  induction v using JsonValue.recDeep with
  | hstr s => simp [deepSortKeys]
  | hnum n => simp [deepSortKeys]
  | hbool b => simp [deepSortKeys]
  | hnull => simp [deepSortKeys]
  | harr xs ih =>
    rw [deepSortKeys_arr, deepSortKeys_arr, List.map_map]
    congr 1
    apply List.map_congr_left
    intro x hx
    exact ih x hx
  | hobj es ih =>
    rw [deepSortKeys_obj, deepSortKeys_obj]
    congr 1
    have hsorted :
        List.Sorted entryLE ((es.insertionSort entryLE).map fun e => (e.1, deepSortKeys e.2)) :=
      sorted_map_sortEntry (List.sorted_insertionSort entryLE es)
    rw [List.Sorted.insertionSort_eq hsorted, List.map_map]
    apply List.map_congr_left
    intro e he
    have hmem : e ∈ es := (List.perm_insertionSort entryLE es).mem_iff.mp he
    simp only [Function.comp_apply]
    rw [ih e hmem]

/-- Well-formedness matching any value produced by JSON.parse: within every
object, at every nesting level, keys are pairwise distinct (a JS object
cannot hold two properties with the same key). -/
inductive NoDupKeys : JsonValue → Prop where
  | str (s : String) : NoDupKeys (.str s)
  | num (n : Int) : NoDupKeys (.num n)
  | bool (b : Bool) : NoDupKeys (.bool b)
  | null : NoDupKeys .null
  | arr {xs : List JsonValue} : (∀ x ∈ xs, NoDupKeys x) → NoDupKeys (.arr xs)
  | obj {es : List (String × JsonValue)} :
      (es.map Prod.fst).Nodup → (∀ e ∈ es, NoDupKeys e.2) → NoDupKeys (.obj es)

theorem NoDupKeys.arr_mem {xs : List JsonValue}
    (h : NoDupKeys (.arr xs)) : ∀ x ∈ xs, NoDupKeys x := by
  cases h
  assumption

theorem NoDupKeys.obj_nodup {es : List (String × JsonValue)}
    (h : NoDupKeys (.obj es)) : (es.map Prod.fst).Nodup := by
  cases h
  assumption

theorem NoDupKeys.obj_mem {es : List (String × JsonValue)}
    (h : NoDupKeys (.obj es)) : ∀ e ∈ es, NoDupKeys e.2 := by
  cases h
  assumption

/-- Equality of JSON values up to a reordering of object keys applied at any
nesting level (the spec's "any permutation of its keys O'"): object entries
are first related pointwise (same key, recursively related value) and then
permuted. -/
inductive KeyPerm : JsonValue → JsonValue → Prop where
  | str (s : String) : KeyPerm (.str s) (.str s)
  | num (n : Int) : KeyPerm (.num n) (.num n)
  | bool (b : Bool) : KeyPerm (.bool b) (.bool b)
  | null : KeyPerm .null .null
  | arr {xs ys : List JsonValue} :
      List.Forall₂ KeyPerm xs ys → KeyPerm (.arr xs) (.arr ys)
  | obj {es es₁ es₂ : List (String × JsonValue)} :
      es.map Prod.fst = es₁.map Prod.fst →
      List.Forall₂ KeyPerm (es.map Prod.snd) (es₁.map Prod.snd) →
      es₁.Perm es₂ →
      KeyPerm (.obj es) (.obj es₂)

theorem forall₂_list_map_eq :
    ∀ {xs ys : List JsonValue}, List.Forall₂ KeyPerm xs ys →
      (∀ x ∈ xs, ∀ w, KeyPerm x w → NoDupKeys x → deepSortKeys x = deepSortKeys w) →
      (∀ x ∈ xs, NoDupKeys x) →
      xs.map deepSortKeys = ys.map deepSortKeys := by
  intro xs ys hf
  induction hf with
  | nil =>
    intro _ _
    rfl
  | cons hxy htail ihf =>
    rename_i x y xs' ys'
    intro ih hnd
    simp only [List.map_cons]
    rw [ih x (by simp) y hxy (hnd x (by simp))]
    rw [ihf (fun a ha w hw hn => ih a (by simp [ha]) w hw hn) (fun a ha => hnd a (by simp [ha]))]

theorem forall₂_entries_map_eq :
    ∀ (es es₁ : List (String × JsonValue)),
      es.map Prod.fst = es₁.map Prod.fst →
      List.Forall₂ KeyPerm (es.map Prod.snd) (es₁.map Prod.snd) →
      (∀ e ∈ es, ∀ w, KeyPerm e.2 w → NoDupKeys e.2 → deepSortKeys e.2 = deepSortKeys w) →
      (∀ e ∈ es, NoDupKeys e.2) →
      es.map (fun e => (e.1, deepSortKeys e.2)) = es₁.map (fun e => (e.1, deepSortKeys e.2)) := by
  intro es
  induction es with
  | nil =>
    intro es₁ hk _ _ _
    cases es₁ with
    | nil => rfl
    | cons b es₁' => simp at hk
  | cons a es' ih =>
    intro es₁ hk hv hih hnd
    cases es₁ with
    | nil => simp at hk
    | cons b es₁' =>
      simp only [List.map_cons] at hk hv
      injection hk with hk1 hk2
      cases hv with
      | cons hab htail =>
        simp only [List.map_cons]
        have h1 : (a.1, deepSortKeys a.2) = (b.1, deepSortKeys b.2) := by
          rw [hk1, hih a (by simp) b.2 hab (hnd a (by simp))]
        rw [h1]
        rw [ih es₁' hk2 htail (fun e he w hw hn => hih e (by simp [he]) w hw hn)
          (fun e he => hnd e (by simp [he]))]

theorem sorted_perm_nodupkeys_eq :
    ∀ (l₁ l₂ : List (String × JsonValue)), l₁.Perm l₂ →
      List.Sorted entryLE l₁ → List.Sorted entryLE l₂ →
      (l₁.map Prod.fst).Nodup → l₁ = l₂ := by
  intro l₁
  induction l₁ with
  | nil =>
    intro l₂ hp _ _ _
    exact hp.nil_eq
  | cons a t ih =>
    intro l₂ hp hs₁ hs₂ hnd
    cases l₂ with
    | nil => exact absurd hp.eq_nil (by simp)
    | cons b t₂ =>
      rw [List.map_cons] at hnd
      have hnd' := List.nodup_cons.mp hnd
      have hamem : a ∈ b :: t₂ := hp.mem_iff.mp (by simp)
      have hbmem : b ∈ a :: t := hp.mem_iff.mpr (by simp)
      have hab : a = b := by
        have h₁ : a.1 ≤ b.1 := by
          rcases List.mem_cons.mp hbmem with h | h
          · simp [h]
          · exact (List.sorted_cons.mp hs₁).1 b h
        have h₂ : b.1 ≤ a.1 := by
          rcases List.mem_cons.mp hamem with h | h
          · simp [h]
          · exact (List.sorted_cons.mp hs₂).1 a h
        have hkey : a.1 = b.1 := le_antisymm h₁ h₂
        by_contra hne
        have hbt : b ∈ t := by
          rcases List.mem_cons.mp hbmem with h | h
          · exact absurd h.symm hne
          · exact h
        have hdup : a.1 ∈ t.map Prod.fst := by
          rw [hkey]
          exact List.mem_map_of_mem Prod.fst hbt
        exact hnd'.1 hdup
      subst hab
      have htp : List.Perm t t₂ := hp.cons_inv
      rw [ih t₂ htp (List.sorted_cons.mp hs₁).2 (List.sorted_cons.mp hs₂).2 hnd'.2]

theorem deepSortKeys_orderIndependent :
    ∀ v w, KeyPerm v w → NoDupKeys v → deepSortKeys v = deepSortKeys w := by
  intro v
  induction v using JsonValue.recDeep with
  | hstr s =>
    intro w h _
    cases h
    rfl
  | hnum n =>
    intro w h _
    cases h
    rfl
  | hbool b =>
    intro w h _
    cases h
    rfl
  | hnull =>
    intro w h _
    cases h
    rfl
  | harr xs ih =>
    intro w h hnd
    cases h with
    | arr hf =>
      rw [deepSortKeys_arr, deepSortKeys_arr]
      exact congrArg JsonValue.arr (forall₂_list_map_eq hf ih (NoDupKeys.arr_mem hnd))
  | hobj es ih =>
    intro w h hnd
    cases h with
    | obj hkeys hvals hperm =>
      rename_i esMid esFin
      rw [deepSortKeys_obj, deepSortKeys_obj]
      refine congrArg JsonValue.obj ?_
      have hstep1 : es.map (fun e => (e.1, deepSortKeys e.2)) =
          esMid.map (fun e => (e.1, deepSortKeys e.2)) :=
        forall₂_entries_map_eq es esMid hkeys hvals ih (NoDupKeys.obj_mem hnd)
      have hcomm1 : (es.insertionSort entryLE).map (fun e => (e.1, deepSortKeys e.2)) =
          (es.map (fun e => (e.1, deepSortKeys e.2))).insertionSort entryLE :=
        List.map_insertionSort _ _ _ _ (fun _ _ _ _ => Iff.rfl)
      have hcomm2 : (esFin.insertionSort entryLE).map (fun e => (e.1, deepSortKeys e.2)) =
          (esFin.map (fun e => (e.1, deepSortKeys e.2))).insertionSort entryLE :=
        List.map_insertionSort _ _ _ _ (fun _ _ _ _ => Iff.rfl)
      rw [hcomm1, hcomm2]
      have hpermf : List.Perm
          ((es.map (fun e => (e.1, deepSortKeys e.2))).insertionSort entryLE)
          ((esFin.map (fun e => (e.1, deepSortKeys e.2))).insertionSort entryLE) := by
        refine (List.perm_insertionSort entryLE _).trans ?_
        rw [hstep1]
        exact (hperm.map _).trans (List.perm_insertionSort entryLE _).symm
      have hkeq : (es.map (fun e => (e.1, deepSortKeys e.2))).map Prod.fst = es.map Prod.fst := by
        rw [List.map_map]
        rfl
      have hndmapped : ((es.map (fun e => (e.1, deepSortKeys e.2))).map Prod.fst).Nodup := by
        rw [hkeq]
        exact NoDupKeys.obj_nodup hnd
      have hndsorted :
          (((es.map (fun e => (e.1, deepSortKeys e.2))).insertionSort entryLE).map Prod.fst).Nodup := by
        have hps := (List.perm_insertionSort entryLE
          (es.map (fun e => (e.1, deepSortKeys e.2)))).map Prod.fst
        exact hps.nodup_iff.mpr hndmapped
      exact sorted_perm_nodupkeys_eq _ _ hpermf
        (List.sorted_insertionSort entryLE _) (List.sorted_insertionSort entryLE _) hndsorted

/-- C9: deepSortKeys is key-order-independent and idempotent: for every JSON
value with duplicate-free object keys (as any JSON.parse result is) and every
reordering of its object keys at any nesting level, the sorted results are
equal field-by-field, and applying deepSortKeys twice equals applying it
once. -/
theorem deepSortKeys_canonical :
    (∀ v w, NoDupKeys v → KeyPerm v w → deepSortKeys v = deepSortKeys w) ∧
    (∀ v, deepSortKeys (deepSortKeys v) = deepSortKeys v) :=
  ⟨fun v w hnd h => deepSortKeys_orderIndependent v w h hnd, deepSortKeys_idem⟩

theorem deepSortKeys_canonical_witness :
    NoDupKeys (JsonValue.obj [(("b"), JsonValue.num 1), (("a"), JsonValue.str ("x"))]) ∧
    deepSortKeys (JsonValue.obj [(("b"), JsonValue.num 1), (("a"), JsonValue.str ("x"))]) =
      deepSortKeys (JsonValue.obj [(("a"), JsonValue.str ("x")), (("b"), JsonValue.num 1)]) ∧
    deepSortKeys (deepSortKeys
        (JsonValue.obj [(("b"), JsonValue.num 1), (("a"), JsonValue.str ("x"))])) =
      deepSortKeys (JsonValue.obj [(("b"), JsonValue.num 1), (("a"), JsonValue.str ("x"))]) := by
  have hnd : NoDupKeys (JsonValue.obj [(("b"), JsonValue.num 1), (("a"), JsonValue.str ("x"))]) := by
    refine NoDupKeys.obj (by decide) ?_
    intro e he
    cases he with
    | head => exact NoDupKeys.num 1
    | tail _ h2 =>
      cases h2 with
      | head => exact NoDupKeys.str ("x")
      | tail _ h3 => cases h3
  refine ⟨hnd, ?_, deepSortKeys_canonical.2 _⟩
  refine deepSortKeys_canonical.1 _ _ hnd ?_
  refine KeyPerm.obj rfl ?_ (List.Perm.swap (("a"), JsonValue.str ("x")) (("b"), JsonValue.num 1) [])
  exact List.Forall₂.cons (KeyPerm.num 1) (List.Forall₂.cons (KeyPerm.str ("x")) List.Forall₂.nil)
